import Mathlib

/-!
Verification of the UTF-8b codec in `src/containers/containers.c` of schemesh.

The C functions are shallowly embedded as Lean functions:

* bytes and codepoints are `Nat` (the C `octet` is 8-bit, so byte values carry
  a `< 256` well-formedness hypothesis where it matters; `string_char` and
  `uint32_t` values stay far below `2 ^ 32`, so no wrap-around modelling is
  needed except where the C source itself truncates, which is written as an
  explicit `% 256`);
* a byte view `(const octet* in, uptr in_len)` is a `List Nat` whose length is
  `in_len`;
* the C `while` loops of the sequence converters consume at least one list
  element per iteration, so they are embedded as structurally recursive
  functions on a fuel argument initialised to the input length, which is the
  exact iteration bound of the C loop;
* the mutable output buffers (`octet*` bytevector data, Scheme string slots)
  are embedded as total functions from positions to values, updated pointwise,
  so that an out-of-bounds store would be visible in the model;
* signed `iptr` arguments are `Int`.
-/

namespace Schemesh

/-! ### Arithmetic toolkit for the C bit operations -/

theorem orAdd (i a b : Nat) (h : b < 2 ^ i) : 2 ^ i * a ||| b = 2 ^ i * a + b :=
  (Nat.mul_add_lt_is_or h a).symm

theorem and63 (x : Nat) : x &&& 63 = x % 64 := by
  have h := Nat.and_pow_two_sub_one_eq_mod x 6
  norm_num at h
  exact h

theorem and31 (x : Nat) : x &&& 31 = x % 32 := by
  have h := Nat.and_pow_two_sub_one_eq_mod x 5
  norm_num at h
  exact h

theorem and15 (x : Nat) : x &&& 15 = x % 16 := by
  have h := Nat.and_pow_two_sub_one_eq_mod x 4
  norm_num at h
  exact h

theorem and7 (x : Nat) : x &&& 7 = x % 8 := by
  have h := Nat.and_pow_two_sub_one_eq_mod x 3
  norm_num at h
  exact h

theorem shl6 (x : Nat) : x <<< 6 = x * 64 := by
  rw [Nat.shiftLeft_eq]

theorem shl12 (x : Nat) : x <<< 12 = x * 4096 := by
  rw [Nat.shiftLeft_eq]

theorem shl18 (x : Nat) : x <<< 18 = x * 262144 := by
  rw [Nat.shiftLeft_eq]

theorem shr6 (x : Nat) : x >>> 6 = x / 64 := by
  rw [Nat.shiftRight_eq_div_pow]

theorem shr12 (x : Nat) : x >>> 12 = x / 4096 := by
  rw [Nat.shiftRight_eq_div_pow]

theorem shr18 (x : Nat) : x >>> 18 = x / 262144 := by
  rw [Nat.shiftRight_eq_div_pow]

theorem or128 (x : Nat) (h : x < 128) : 128 ||| x = 128 + x := by
  have h2 := orAdd 7 1 x (by norm_num; omega)
  norm_num at h2
  exact h2

theorem or192 (x : Nat) (h : x < 64) : 192 ||| x = 192 + x := by
  have h2 := orAdd 6 3 x (by norm_num; omega)
  norm_num at h2
  exact h2

theorem or224 (x : Nat) (h : x < 32) : 224 ||| x = 224 + x := by
  have h2 := orAdd 5 7 x (by norm_num; omega)
  norm_num at h2
  exact h2

theorem or240 (x : Nat) (h : x < 16) : 240 ||| x = 240 + x := by
  have h2 := orAdd 4 15 x (by norm_num; omega)
  norm_num at h2
  exact h2

theorem orDC00 (x : Nat) (h : x < 256) : 0xDC00 ||| x = 0xDC00 + x := by
  have h2 := orAdd 8 220 x (by norm_num; omega)
  norm_num at h2
  exact h2

theorem orMul64 (a x : Nat) (h : x < 64) : a * 64 ||| x = a * 64 + x := by
  have h2 := orAdd 6 a x (by norm_num; omega)
  norm_num at h2
  rw [Nat.mul_comm 64 a] at h2
  exact h2

theorem orMul4096 (a x : Nat) (h : x < 4096) : a * 4096 ||| x = a * 4096 + x := by
  have h2 := orAdd 12 a x (by norm_num; omega)
  norm_num at h2
  rw [Nat.mul_comm 4096 a] at h2
  exact h2

theorem orMul262144 (a x : Nat) (h : x < 262144) :
    a * 262144 ||| x = a * 262144 + x := by
  have h2 := orAdd 18 a x (by norm_num; omega)
  norm_num at h2
  rw [Nat.mul_comm 262144 a] at h2
  exact h2

set_option maxRecDepth 4000 in
/-- The C continuation-byte test `(b & 0xC0) == 0x80`, characterised
arithmetically for 8-bit values. -/
theorem contByte_iff : ∀ b < 256, (b &&& 0xC0 = 0x80 ↔ 0x80 ≤ b ∧ b < 0xC0) := by
  decide

/-! ### Single-unit codec, translated from `src/containers/containers.c` -/

/-- `c_codepoint_to_utf8b_length` (containers.c:101): length of the UTF-8b
encoding of one codepoint; classification only, no validity check. -/
def c_codepoint_to_utf8b_length (codepoint : Nat) : Nat :=
  if codepoint < 0x800 then
    if codepoint < 0x80 then 1 else 2
  else if 0xDC80 ≤ codepoint ∧ codepoint < 0xDD00 then 1
  else if codepoint < 0x10000 then 3 else 4

/-- `c_codepoint_to_utf8b` (containers.c:121): encode one codepoint into a
buffer with `out_len` bytes of remaining capacity.  Returns the list of bytes
written (the C function returns their count and stores them through `out`);
the empty list is the C return value `0`: nothing is written, either because
`out_len` is too small or because the codepoint is invalid.  The C stores
`out[i]` are into `octet`, a narrowing assignment, written here as `% 256`. -/
def c_codepoint_to_utf8b (codepoint : Nat) (out_len : Nat) : List Nat :=
  if codepoint < 0x80 ∨ (0xDC80 ≤ codepoint ∧ codepoint < 0xDD00) then
    if 0 < out_len then [codepoint % 256] else []
  else if codepoint < 0x800 then
    if 2 ≤ out_len then
      [(0xC0 ||| ((codepoint >>> 6) &&& 0x1F)) % 256,
       (0x80 ||| (codepoint &&& 0x3F)) % 256]
    else []
  else if codepoint < 0x10000 then
    if codepoint < 0xD800 ∨ 0xE000 ≤ codepoint then
      if 3 ≤ out_len then
        [(0xE0 ||| ((codepoint >>> 12) &&& 0x0F)) % 256,
         (0x80 ||| ((codepoint >>> 6) &&& 0x3F)) % 256,
         (0x80 ||| (codepoint &&& 0x3F)) % 256]
      else []
    else []
  else if codepoint < 0x110000 then
    if 4 ≤ out_len then
      [(0xF0 ||| ((codepoint >>> 18) &&& 0x07)) % 256,
       (0x80 ||| ((codepoint >>> 12) &&& 0x3F)) % 256,
       (0x80 ||| ((codepoint >>> 6) &&& 0x3F)) % 256,
       (0x80 ||| (codepoint &&& 0x3F)) % 256]
    else []
  else []

/-- `c_utf8_ok` (containers.c:295): pack a codepoint with its byte length. -/
def c_utf8_ok (codepoint length : Nat) : Nat × Nat := (codepoint, length)

/-- `c_utf8_incomplete` (containers.c:302): when `eof` is false, replace the
result by the incomplete marker.  The C stores `-1` into the `uint32_t`
codepoint field, i.e. `0xFFFFFFFF`, and stores `in_len` into the length. -/
def c_utf8_incomplete (ret : Nat × Nat) (in_len : Nat) (eof : Bool) : Nat × Nat :=
  if eof = false then (0xFFFFFFFF, in_len) else ret

/-- `c_utf8b_to_codepoint` (containers.c:315): decode one UTF-8b unit from the
byte view `l`; returns the codepoint and the number of bytes consumed.  The C
checks `in_len == 1` / `in_len == 2` / `in_len == 3` before reading `in[1]` /
`in[2]` / `in[3]` appear here as the list pattern matches. -/
def c_utf8b_to_codepoint (l : List Nat) (eof : Bool) : Nat × Nat :=
  match l with
  | [] => c_utf8_ok 0 0
  | in0 :: tail1 =>
    if in0 < 0x80 then c_utf8_ok in0 1 else
    -- default: invalid, overlong or truncated UTF-8 sequence,
    -- encoded by UTF-8b as 0xDC00 | in0
    let ret := c_utf8_ok (0xDC00 ||| in0) 1
    if in0 < 0xC2 ∨ 0xF4 < in0 then ret else
    match tail1 with
    | [] => ret
    | in1 :: tail2 =>
      if ¬(in1 &&& 0xC0 = 0x80) then ret else
      if in0 < 0xE0 then c_utf8_ok (((in0 &&& 0x1F) <<< 6) ||| (in1 &&& 0x3F)) 2 else
      match tail2 with
      | [] => c_utf8_incomplete ret 2 eof
      | in2 :: tail3 =>
        if ¬(in2 &&& 0xC0 = 0x80) then ret else
        if in0 < 0xF0 then
          let val := ((in0 &&& 0x0F) <<< 12) ||| ((in1 &&& 0x3F) <<< 6) ||| (in2 &&& 0x3F)
          if 0x800 ≤ val ∧ (val < 0xD800 ∨ 0xE000 ≤ val) then c_utf8_ok val 3 else ret
        else
        match tail3 with
        | [] => c_utf8_incomplete ret 3 eof
        | in3 :: _ =>
          if in0 ≤ 0xF4 ∧ in3 &&& 0xC0 = 0x80 then
            let val := ((in0 &&& 0x07) <<< 18) ||| ((in1 &&& 0x3F) <<< 12) |||
                       ((in2 &&& 0x3F) <<< 6) ||| (in3 &&& 0x3F)
            if 0x10000 ≤ val ∧ val < 0x110000 then c_utf8_ok val 4 else ret
          else ret

/-- `c_utf8b_to_codepoint_length` (containers.c:243): length-only single-unit
decode; same structural checks, always behaving as if at end of input. -/
def c_utf8b_to_codepoint_length (l : List Nat) : Nat :=
  match l with
  | [] => 0
  | in0 :: tail1 =>
    if in0 < 0x80 then 1 else
    if in0 < 0xC2 ∨ 0xF4 < in0 then 1 else
    match tail1 with
    | [] => 1
    | in1 :: tail2 =>
      if ¬(in1 &&& 0xC0 = 0x80) then 1 else
      if in0 < 0xE0 then 2 else
      match tail2 with
      | [] => 1
      | in2 :: tail3 =>
        if ¬(in2 &&& 0xC0 = 0x80) then 1 else
        if in0 < 0xF0 then
          let val := ((in0 &&& 0x0F) <<< 12) ||| ((in1 &&& 0x3F) <<< 6) ||| (in2 &&& 0x3F)
          if 0x800 ≤ val ∧ (val < 0xD800 ∨ 0xE000 ≤ val) then 3 else 1
        else
        match tail3 with
        | [] => 1
        | in3 :: _ =>
          if in0 ≤ 0xF4 ∧ in3 &&& 0xC0 = 0x80 then
            let val := ((in0 &&& 0x07) <<< 18) ||| ((in1 &&& 0x3F) <<< 12) |||
                       ((in2 &&& 0x3F) <<< 6) ||| (in3 &&& 0x3F)
            if 0x10000 ≤ val ∧ val < 0x110000 then 4 else 1
          else 1

example : c_utf8b_to_codepoint [0xE2, 0x82, 0xAC] true = (0x20AC, 3) := by decide
example : c_utf8b_to_codepoint [0xE2, 0x82] false = (0xFFFFFFFF, 2) := by decide
example : c_utf8b_to_codepoint [0xC0, 0x80] true = (0xDCC0, 1) := by decide
example : c_codepoint_to_utf8b 0x20AC 4 = [0xE2, 0x82, 0xAC] := by decide
example : c_codepoint_to_utf8b 0xDC80 4 = [0x80] := by decide
example : c_codepoint_to_utf8b 0xD800 4 = [] := by decide

/-! ### Sequence operations -/

/-- A Scheme value returned by `c_string_to_utf8b_append`: `Sfalse`,
`Schar(codepoint)`, or `Sfixnum(position)`. -/
inductive SRet where
  | sfalse : SRet
  | schar : Nat → SRet
  | sfixnum : Nat → SRet
deriving DecidableEq

/-- One store through the bytevector data pointer. -/
def writeByte (mem : Nat → Nat) (i v : Nat) : Nat → Nat :=
  fun j => if j = i then v else mem j

/-- The stores performed by `c_codepoint_to_utf8b` for one unit, at
consecutive positions starting at `i`. -/
def writeBytes : (Nat → Nat) → Nat → List Nat → (Nat → Nat)
  | mem, _, [] => mem
  | mem, i, b :: bs => writeBytes (writeByte mem i b) (i + 1) bs

/-- One `Sstring_set` store into the output string. -/
def writeChar (mem : Int → Nat) (i : Int) (v : Nat) : Int → Nat :=
  fun j => if j = i then v else mem j

/-- The `for` loop of `c_string_to_utf8b_append` (containers.c:202): the list
argument is the slice `string[ipos..iend)` still to be encoded; `oend` is the
bytevector length, `opos` the output write position. -/
def c_string_to_utf8b_loop (oend : Nat) :
    List Nat → (Nat → Nat) → Nat → SRet × (Nat → Nat)
  | [], mem, opos => (.sfixnum opos, mem)
  | cp :: rest, mem, opos =>
    if oend ≤ opos then (.sfalse, mem)
    else
      let written := c_codepoint_to_utf8b cp (oend - opos)
      if written.length ≠ 0 then
        c_string_to_utf8b_loop oend rest (writeBytes mem opos written) (opos + written.length)
      else (.schar cp, mem)

/-- `c_string_to_utf8b_append` (containers.c:193).  The bytevector is a length
`blen` plus a data function `mem`; `start`, `end_`, `ostart` are the signed
`iptr` arguments. -/
def c_string_to_utf8b_append (string : List Nat) (start end_ : Int)
    (blen : Nat) (mem : Nat → Nat) (ostart : Int) : SRet × (Nat → Nat) :=
  if 0 ≤ start ∧ start ≤ end_ ∧ 0 ≤ ostart then
    let ilen : Int := string.length
    let ipos : Int := if start < ilen then start else ilen
    let iend : Int := if end_ < ilen then (if start ≤ end_ then end_ else start) else ilen
    c_string_to_utf8b_loop blen ((string.take iend.toNat).drop ipos.toNat) mem ostart.toNat
  else (.sfalse, mem)

/-- `c_string_to_utf8b_length` (containers.c:171): dry-run byte count of the
encoding of `string[start..end_)`, with `end_` clamped to the length. -/
def c_string_to_utf8b_length (string : List Nat) (start end_ : Int) : Nat :=
  if 0 ≤ start ∧ start < end_ then
    let ilen : Int := string.length
    let i : Int := if start < ilen then start else ilen
    let iend : Int := if end_ < ilen then end_ else ilen
    (((string.take iend.toNat).drop i.toNat).map c_codepoint_to_utf8b_length).sum
  else 0

/-- The `while` loop of `c_bytes_utf8b_to_string_append` (containers.c:447).
Returns the unconsumed input, the updated string and the final `str_pos`.
Each iteration consumes at least one byte, so fuel `=` input length is the
exact iteration bound of the C loop. -/
def c_bytes_utf8b_to_string_loop (str_end : Int) (eof : Bool) :
    Nat → List Nat → (Int → Nat) → Int → List Nat × (Int → Nat) × Int
  | _, [], str, str_pos => ([], str, str_pos)
  | 0, b :: t, str, str_pos => (b :: t, str, str_pos)
  | fuel + 1, b :: t, str, str_pos =>
    let l := b :: t
    let pair := c_utf8b_to_codepoint l eof
    if pair.2 = 0 ∨ l.length < pair.2 ∨ str_end ≤ str_pos then (l, str, str_pos)
    else
      c_bytes_utf8b_to_string_loop str_end eof fuel (l.drop pair.2)
        (writeChar str str_pos pair.1) (str_pos + 1)

/-- `c_bytes_utf8b_to_string_append` (containers.c:437): convert the byte view
`inp` into the string `str` at positions `[str_start, str_end)`; returns the
pair (bytes consumed, codepoints written) and the updated string. -/
def c_bytes_utf8b_to_string_append (inp : List Nat) (str : Int → Nat)
    (str_start str_end : Int) (eof : Bool) : (Nat × Nat) × (Int → Nat) :=
  if inp.length = 0 ∨ str_end ≤ str_start then ((0, 0), str)
  else
    let r := c_bytes_utf8b_to_string_loop str_end eof inp.length inp str str_start
    ((inp.length - r.1.length, (r.2.2 - str_start).toNat), r.2.1)

/-- The `while` loop of `c_bytes_utf8b_to_string_length` (containers.c:378). -/
def c_bytes_utf8b_to_string_length_loop : Nat → List Nat → Nat
  | _, [] => 0
  | 0, _ :: _ => 0
  | fuel + 1, b :: t =>
    let l := b :: t
    let consumed := c_utf8b_to_codepoint_length l
    if consumed = 0 ∨ l.length < consumed then 0
    else 1 + c_bytes_utf8b_to_string_length_loop fuel (l.drop consumed)

/-- `c_bytes_utf8b_to_string_length` (containers.c:378): number of codepoints
produced by the length-only decode of the byte view `l`. -/
def c_bytes_utf8b_to_string_length (l : List Nat) : Nat :=
  c_bytes_utf8b_to_string_length_loop l.length l

/-- `c_bytevector_utf8b_to_string_append` (containers.c:470).  The `cons_eof`
cell is split into the `eof` input flag and the returned pair of counters. -/
def c_bytevector_utf8b_to_string_append (bvec : List Nat) (bvec_start bvec_end : Int)
    (str : Int → Nat) (str_start str_end : Int) (eof : Bool) :
    (Nat × Nat) × (Int → Nat) :=
  if 0 ≤ bvec_start ∧ bvec_start ≤ bvec_end ∧ 0 ≤ str_start ∧ str_start ≤ str_end then
    if bvec_end ≤ (bvec.length : Int) then
      c_bytes_utf8b_to_string_append
        ((bvec.take bvec_end.toNat).drop bvec_start.toNat) str str_start str_end eof
    else ((0, 0), str)
  else ((0, 0), str)

/-- The decode loop of `c_bytes_utf8b_to_string_append` with `eof` true and
unbounded output capacity (the `str_pos >= str_end` test never fires),
returning the written codepoints in order instead of storing them. -/
def utf8bDecodeLoop : Nat → List Nat → List Nat
  | _, [] => []
  | 0, _ :: _ => []
  | fuel + 1, b :: t =>
    let l := b :: t
    let pair := c_utf8b_to_codepoint l true
    if pair.2 = 0 ∨ l.length < pair.2 then []
    else pair.1 :: utf8bDecodeLoop fuel (l.drop pair.2)

/-- Decode a whole byte sequence one unit at a time with end-of-input
asserted. -/
def utf8bDecode (l : List Nat) : List Nat := utf8bDecodeLoop l.length l

/-- The encode loop of `c_string_to_utf8b_append` with unlimited remaining
capacity (4 bytes always suffice for one unit): the concatenation of the
single-unit encodings. -/
def utf8bEncode : List Nat → List Nat
  | [] => []
  | cp :: t => c_codepoint_to_utf8b cp 4 ++ utf8bEncode t

example : utf8bDecode [0x41, 0xE2, 0x82, 0xAC, 0xFF] = [0x41, 0x20AC, 0xDCFF] := by decide
example : utf8bEncode [0x41, 0x20AC, 0xDCFF] = [0x41, 0xE2, 0x82, 0xAC, 0xFF] := by decide
example : (c_bytes_utf8b_to_string_append [0xE2, 0x82] (fun _ => 0) 0 2 false).1 = (2, 1) := by
  decide
example : ((c_bytes_utf8b_to_string_append [0xE2, 0x82] (fun _ => 0) 0 2 false).2) 0 =
    0xFFFFFFFF := by decide
example : (c_string_to_utf8b_append [0x80] 0 1 1 (fun _ => 0) 0).1 = .schar 0x80 := by decide

/-! ### Single-unit encoder lemmas -/

/-- The unit encoder never produces more bytes than the declared remaining
capacity `out_len`. -/
theorem c_codepoint_to_utf8b_length_le (cp k : Nat) :
    (c_codepoint_to_utf8b cp k).length ≤ k := by
  unfold c_codepoint_to_utf8b
  split_ifs <;> simp <;> omega

/-- Encoding an ASCII codepoint with ample capacity writes the byte itself. -/
theorem enc_ascii (b : Nat) (h : b < 0x80) : c_codepoint_to_utf8b b 4 = [b] := by
  unfold c_codepoint_to_utf8b
  rw [if_pos (Or.inl h), if_pos (by norm_num)]
  congr 1
  omega

/-- Encoding the escape codepoint `0xDC00 ||| b` of a byte `b ≥ 0x80` with
ample capacity writes back exactly that byte (the narrowing store). -/
theorem enc_escape (b : Nat) (h1 : 0x80 ≤ b) (h2 : b < 256) :
    c_codepoint_to_utf8b (0xDC00 ||| b) 4 = [b] ∧
    0xDC80 ≤ 0xDC00 ||| b ∧ 0xDC00 ||| b < 0xDD00 := by
  rw [orDC00 b h2]
  refine ⟨?_, by omega, by omega⟩
  unfold c_codepoint_to_utf8b
  rw [if_pos (Or.inr (by omega)), if_pos (by norm_num)]
  congr 1
  omega

/-- Re-encoding the codepoint assembled by the decoder's 2-byte branch
reproduces the two input bytes. -/
theorem enc_2 (b0 b1 : Nat) (h0 : 0xC2 ≤ b0) (h0' : b0 < 0xE0)
    (h1 : 0x80 ≤ b1) (h1' : b1 < 0xC0) :
    c_codepoint_to_utf8b (((b0 &&& 0x1F) <<< 6) ||| (b1 &&& 0x3F)) 4 = [b0, b1] ∧
    0x80 ≤ ((b0 &&& 0x1F) <<< 6) ||| (b1 &&& 0x3F) ∧
    ((b0 &&& 0x1F) <<< 6) ||| (b1 &&& 0x3F) < 0x800 := by
  have hcp : ((b0 &&& 0x1F) <<< 6) ||| (b1 &&& 0x3F) = b0 % 32 * 64 + b1 % 64 := by
    rw [and31, and63, shl6, orMul64 _ _ (Nat.mod_lt _ (by norm_num))]
  rw [hcp]
  refine ⟨?_, by omega, by omega⟩
  have hb0 : (0xC0 ||| (b0 % 32 * 64 + b1 % 64) >>> 6 &&& 0x1F) % 256 = b0 := by
    rw [shr6, and31]
    have d1 : (b0 % 32 * 64 + b1 % 64) / 64 % 32 = b0 - 192 := by omega
    rw [d1, or192 _ (by omega)]
    omega
  have hb1 : (0x80 ||| (b0 % 32 * 64 + b1 % 64) &&& 0x3F) % 256 = b1 := by
    rw [and63]
    have d2 : (b0 % 32 * 64 + b1 % 64) % 64 = b1 - 128 := by omega
    rw [d2, or128 _ (by omega)]
    omega
  unfold c_codepoint_to_utf8b
  rw [if_neg (by omega), if_pos (by omega), if_pos (by norm_num), hb0, hb1]

/-- Re-encoding the codepoint assembled by the decoder's 3-byte branch (when
its range tests pass) reproduces the three input bytes. -/
theorem enc_3 (b0 b1 b2 : Nat) (h0 : 0xE0 ≤ b0) (h0' : b0 < 0xF0)
    (h1 : 0x80 ≤ b1) (h1' : b1 < 0xC0) (h2 : 0x80 ≤ b2) (h2' : b2 < 0xC0)
    (hr : 0x800 ≤ ((b0 &&& 0x0F) <<< 12) ||| ((b1 &&& 0x3F) <<< 6) ||| (b2 &&& 0x3F) ∧
      (((b0 &&& 0x0F) <<< 12) ||| ((b1 &&& 0x3F) <<< 6) ||| (b2 &&& 0x3F) < 0xD800 ∨
       0xE000 ≤ ((b0 &&& 0x0F) <<< 12) ||| ((b1 &&& 0x3F) <<< 6) ||| (b2 &&& 0x3F))) :
    c_codepoint_to_utf8b
        (((b0 &&& 0x0F) <<< 12) ||| ((b1 &&& 0x3F) <<< 6) ||| (b2 &&& 0x3F)) 4 =
      [b0, b1, b2] ∧
    ((b0 &&& 0x0F) <<< 12) ||| ((b1 &&& 0x3F) <<< 6) ||| (b2 &&& 0x3F) < 0x10000 := by
  have hcp : ((b0 &&& 0x0F) <<< 12) ||| ((b1 &&& 0x3F) <<< 6) ||| (b2 &&& 0x3F) =
      b0 % 16 * 4096 + b1 % 64 * 64 + b2 % 64 := by
    rw [and15, and63, and63, shl12, shl6]
    rw [orMul4096 _ _ (by have := Nat.mod_lt b1 (y := 64) (by norm_num); omega)]
    have e : b0 % 16 * 4096 + b1 % 64 * 64 = (b0 % 16 * 64 + b1 % 64) * 64 := by ring
    rw [e, orMul64 _ _ (Nat.mod_lt _ (by norm_num))]
  rw [hcp] at hr ⊢
  have hb0 : (0xE0 ||| (b0 % 16 * 4096 + b1 % 64 * 64 + b2 % 64) >>> 12 &&& 0x0F) % 256 =
      b0 := by
    rw [shr12, and15]
    have d : (b0 % 16 * 4096 + b1 % 64 * 64 + b2 % 64) / 4096 % 16 = b0 - 224 := by omega
    rw [d, or224 _ (by omega)]
    omega
  have hb1 : (0x80 ||| (b0 % 16 * 4096 + b1 % 64 * 64 + b2 % 64) >>> 6 &&& 0x3F) % 256 =
      b1 := by
    rw [shr6, and63]
    have d : (b0 % 16 * 4096 + b1 % 64 * 64 + b2 % 64) / 64 % 64 = b1 - 128 := by omega
    rw [d, or128 _ (by omega)]
    omega
  have hb2 : (0x80 ||| (b0 % 16 * 4096 + b1 % 64 * 64 + b2 % 64) &&& 0x3F) % 256 = b2 := by
    rw [and63]
    have d : (b0 % 16 * 4096 + b1 % 64 * 64 + b2 % 64) % 64 = b2 - 128 := by omega
    rw [d, or128 _ (by omega)]
    omega
  refine ⟨?_, by omega⟩
  unfold c_codepoint_to_utf8b
  rw [if_neg (by omega), if_neg (by omega), if_pos (by omega), if_pos (by omega),
    if_pos (by norm_num), hb0, hb1, hb2]

/-- Re-encoding the codepoint assembled by the decoder's 4-byte branch (when
its range tests pass) reproduces the four input bytes. -/
theorem enc_4 (b0 b1 b2 b3 : Nat) (h0 : 0xF0 ≤ b0) (h0' : b0 ≤ 0xF4)
    (h1 : 0x80 ≤ b1) (h1' : b1 < 0xC0) (h2 : 0x80 ≤ b2) (h2' : b2 < 0xC0)
    (h3 : 0x80 ≤ b3) (h3' : b3 < 0xC0)
    (hr : 0x10000 ≤ ((b0 &&& 0x07) <<< 18) ||| ((b1 &&& 0x3F) <<< 12) |||
        ((b2 &&& 0x3F) <<< 6) ||| (b3 &&& 0x3F) ∧
      ((b0 &&& 0x07) <<< 18) ||| ((b1 &&& 0x3F) <<< 12) |||
        ((b2 &&& 0x3F) <<< 6) ||| (b3 &&& 0x3F) < 0x110000) :
    c_codepoint_to_utf8b
        (((b0 &&& 0x07) <<< 18) ||| ((b1 &&& 0x3F) <<< 12) |||
          ((b2 &&& 0x3F) <<< 6) ||| (b3 &&& 0x3F)) 4 =
      [b0, b1, b2, b3] := by
  have hcp : ((b0 &&& 0x07) <<< 18) ||| ((b1 &&& 0x3F) <<< 12) |||
      ((b2 &&& 0x3F) <<< 6) ||| (b3 &&& 0x3F) =
      b0 % 8 * 262144 + b1 % 64 * 4096 + b2 % 64 * 64 + b3 % 64 := by
    rw [and7, and63, and63, and63, shl18, shl12, shl6]
    rw [orMul262144 _ _ (by have := Nat.mod_lt b1 (y := 64) (by norm_num); omega)]
    have e1 : b0 % 8 * 262144 + b1 % 64 * 4096 = (b0 % 8 * 64 + b1 % 64) * 4096 := by ring
    rw [e1, orMul4096 _ _ (by have := Nat.mod_lt b2 (y := 64) (by norm_num); omega)]
    have e2 : (b0 % 8 * 64 + b1 % 64) * 4096 + b2 % 64 * 64 =
        ((b0 % 8 * 64 + b1 % 64) * 64 + b2 % 64) * 64 := by ring
    rw [e2, orMul64 _ _ (Nat.mod_lt _ (by norm_num))]
  rw [hcp] at hr ⊢
  have hb0 : (0xF0 ||| (b0 % 8 * 262144 + b1 % 64 * 4096 + b2 % 64 * 64 + b3 % 64) >>> 18
      &&& 0x07) % 256 = b0 := by
    rw [shr18, and7]
    have d : (b0 % 8 * 262144 + b1 % 64 * 4096 + b2 % 64 * 64 + b3 % 64) / 262144 % 8 =
        b0 - 240 := by omega
    rw [d, or240 _ (by omega)]
    omega
  have hb1 : (0x80 ||| (b0 % 8 * 262144 + b1 % 64 * 4096 + b2 % 64 * 64 + b3 % 64) >>> 12
      &&& 0x3F) % 256 = b1 := by
    rw [shr12, and63]
    have d : (b0 % 8 * 262144 + b1 % 64 * 4096 + b2 % 64 * 64 + b3 % 64) / 4096 % 64 =
        b1 - 128 := by omega
    rw [d, or128 _ (by omega)]
    omega
  have hb2 : (0x80 ||| (b0 % 8 * 262144 + b1 % 64 * 4096 + b2 % 64 * 64 + b3 % 64) >>> 6
      &&& 0x3F) % 256 = b2 := by
    rw [shr6, and63]
    have d : (b0 % 8 * 262144 + b1 % 64 * 4096 + b2 % 64 * 64 + b3 % 64) / 64 % 64 =
        b2 - 128 := by omega
    rw [d, or128 _ (by omega)]
    omega
  have hb3 : (0x80 ||| (b0 % 8 * 262144 + b1 % 64 * 4096 + b2 % 64 * 64 + b3 % 64)
      &&& 0x3F) % 256 = b3 := by
    rw [and63]
    have d : (b0 % 8 * 262144 + b1 % 64 * 4096 + b2 % 64 * 64 + b3 % 64) % 64 =
        b3 - 128 := by omega
    rw [d, or128 _ (by omega)]
    omega
  unfold c_codepoint_to_utf8b
  rw [if_neg (by omega), if_neg (by omega), if_neg (by omega), if_pos (by omega),
    if_pos (by norm_num), hb0, hb1, hb2, hb3]

/-! ### The master per-unit decode lemma -/

/-- Shared shape of the decoder-unit specification for the escape leaves. -/
theorem decode_unit_escape (b0 : Nat) (t : List Nat) (h1 : 0x80 ≤ b0) (h2 : b0 < 256) :
    ∃ cp n, ((0xDC00 ||| b0 : Nat), (1 : Nat)) = (cp, n) ∧ 1 ≤ n ∧ n ≤ (b0 :: t).length ∧
      c_codepoint_to_utf8b cp 4 = (b0 :: t).take n ∧
      ((cp < 0x110000 ∧ ¬(0xD800 ≤ cp ∧ cp < 0xE000)) ∨ (0xDC80 ≤ cp ∧ cp < 0xDD00)) := by
  obtain ⟨he, hlo, hhi⟩ := enc_escape b0 h1 h2
  exact ⟨_, _, rfl, le_refl 1, by simp, by simp [he], Or.inr ⟨hlo, hhi⟩⟩

set_option maxHeartbeats 1600000 in
/-- One stateful decode step at end of input: it consumes between 1 byte and
the whole view, re-encoding its codepoint restores exactly the consumed
bytes, and the codepoint is either a valid Unicode scalar value or an escape
value in `[0xDC80, 0xDD00)`. -/
theorem decode_unit (b0 : Nat) (t : List Nat) (hwf : ∀ x ∈ b0 :: t, x < 256) :
    ∃ cp n, c_utf8b_to_codepoint (b0 :: t) true = (cp, n) ∧
      1 ≤ n ∧ n ≤ (b0 :: t).length ∧
      c_codepoint_to_utf8b cp 4 = (b0 :: t).take n ∧
      ((cp < 0x110000 ∧ ¬(0xD800 ≤ cp ∧ cp < 0xE000)) ∨
        (0xDC80 ≤ cp ∧ cp < 0xDD00)) := by
  have hb0 : b0 < 256 := hwf b0 (by simp)
  rcases t with _ | ⟨b1, t⟩
  · simp only [c_utf8b_to_codepoint, c_utf8_ok, c_utf8_incomplete]
    split_ifs with ha hb
    · exact ⟨_, _, rfl, le_refl 1, by simp, by simp [enc_ascii b0 ha],
        Or.inl ⟨by omega, by omega⟩⟩
    · exact decode_unit_escape b0 [] (by omega) hb0
    · exact decode_unit_escape b0 [] (by omega) hb0
  · have hb1 : b1 < 256 := hwf b1 (by simp)
    rcases t with _ | ⟨b2, t⟩
    · simp only [c_utf8b_to_codepoint, c_utf8_ok, c_utf8_incomplete]
      split_ifs with ha hb hc hd hF
      · exact ⟨_, _, rfl, le_refl 1, by simp, by simp [enc_ascii b0 ha],
          Or.inl ⟨by omega, by omega⟩⟩
      · exact decode_unit_escape b0 [b1] (by omega) hb0
      · obtain ⟨hcl, hcr⟩ := (contByte_iff b1 hb1).mp hc
        obtain ⟨he2, hlo, hhi⟩ := enc_2 b0 b1 (by omega) hd hcl hcr
        exact ⟨_, _, rfl, by omega, by simp, by simp [he2], Or.inl ⟨by omega, by omega⟩⟩
      · exact hF.elim
      · exact decode_unit_escape b0 [b1] (by omega) hb0
      · exact decode_unit_escape b0 [b1] (by omega) hb0
    · have hb2 : b2 < 256 := hwf b2 (by simp)
      rcases t with _ | ⟨b3, t⟩
      · simp only [c_utf8b_to_codepoint, c_utf8_ok, c_utf8_incomplete]
        split_ifs with ha hb hc hd he hf hg hF
        · exact ⟨_, _, rfl, le_refl 1, by simp, by simp [enc_ascii b0 ha],
            Or.inl ⟨by omega, by omega⟩⟩
        · exact decode_unit_escape b0 [b1, b2] (by omega) hb0
        · obtain ⟨hcl, hcr⟩ := (contByte_iff b1 hb1).mp hc
          obtain ⟨he2, hlo, hhi⟩ := enc_2 b0 b1 (by omega) hd hcl hcr
          exact ⟨_, _, rfl, by omega, by simp, by simp [he2], Or.inl ⟨by omega, by omega⟩⟩
        · obtain ⟨h1l, h1r⟩ := (contByte_iff b1 hb1).mp hc
          obtain ⟨h2l, h2r⟩ := (contByte_iff b2 hb2).mp he
          obtain ⟨he3, hlt⟩ := enc_3 b0 b1 b2 (by omega) hf h1l h1r h2l h2r hg
          exact ⟨_, _, rfl, by omega, by simp, by simp [he3],
            Or.inl ⟨by omega, by omega⟩⟩
        · exact decode_unit_escape b0 [b1, b2] (by omega) hb0
        · exact hF.elim
        · exact decode_unit_escape b0 [b1, b2] (by omega) hb0
        · exact decode_unit_escape b0 [b1, b2] (by omega) hb0
        · exact decode_unit_escape b0 [b1, b2] (by omega) hb0
      · have hb3 : b3 < 256 := hwf b3 (by simp)
        simp only [c_utf8b_to_codepoint, c_utf8_ok, c_utf8_incomplete]
        split_ifs with ha hb hc hd he hf hg hh hi
        · exact ⟨_, _, rfl, le_refl 1, by simp, by simp [enc_ascii b0 ha],
            Or.inl ⟨by omega, by omega⟩⟩
        · exact decode_unit_escape b0 (b1 :: b2 :: b3 :: t) (by omega) hb0
        · obtain ⟨hcl, hcr⟩ := (contByte_iff b1 hb1).mp hc
          obtain ⟨he2, hlo, hhi⟩ := enc_2 b0 b1 (by omega) hd hcl hcr
          exact ⟨_, _, rfl, by omega, by simp, by simp [he2],
            Or.inl ⟨by omega, by omega⟩⟩
        · obtain ⟨h1l, h1r⟩ := (contByte_iff b1 hb1).mp hc
          obtain ⟨h2l, h2r⟩ := (contByte_iff b2 hb2).mp he
          obtain ⟨he3, hlt⟩ := enc_3 b0 b1 b2 (by omega) hf h1l h1r h2l h2r hg
          exact ⟨_, _, rfl, by omega, by simp, by simp [he3],
            Or.inl ⟨by omega, by omega⟩⟩
        · exact decode_unit_escape b0 (b1 :: b2 :: b3 :: t) (by omega) hb0
        · obtain ⟨h1l, h1r⟩ := (contByte_iff b1 hb1).mp hc
          obtain ⟨h2l, h2r⟩ := (contByte_iff b2 hb2).mp he
          obtain ⟨h3l, h3r⟩ := (contByte_iff b3 hb3).mp hh.2
          have he4 := enc_4 b0 b1 b2 b3 (by omega) hh.1 h1l h1r h2l h2r h3l h3r hi
          exact ⟨_, _, rfl, by omega, by simp, by simp [he4],
            Or.inl ⟨by omega, by omega⟩⟩
        · exact decode_unit_escape b0 (b1 :: b2 :: b3 :: t) (by omega) hb0
        · exact decode_unit_escape b0 (b1 :: b2 :: b3 :: t) (by omega) hb0
        · exact decode_unit_escape b0 (b1 :: b2 :: b3 :: t) (by omega) hb0
        · exact decode_unit_escape b0 (b1 :: b2 :: b3 :: t) (by omega) hb0

/-! ### Sequence-level round-trip (spec invariant: losslessness) -/

theorem roundtrip_aux : ∀ fuel l, l.length ≤ fuel → (∀ b ∈ l, b < 256) →
    utf8bEncode (utf8bDecodeLoop fuel l) = l := by
  intro fuel
  induction fuel with
  | zero =>
    intro l hl _
    cases l with
    | nil => rfl
    | cons b t => simp at hl
  | succ n ih =>
    intro l hl hwf
    cases l with
    | nil => rfl
    | cons b t =>
      obtain ⟨cp, k, heq, h1, h2, henc, _⟩ := decode_unit b t hwf
      simp only [utf8bDecodeLoop, heq]
      rw [if_neg (by omega)]
      simp only [utf8bEncode]
      rw [ih ((b :: t).drop k) (by rw [List.length_drop]; omega)
          (fun x hx => hwf x (List.drop_subset _ _ hx))]
      rw [henc]
      exact List.take_append_drop k (b :: t)

theorem decoded_class_aux : ∀ fuel l, l.length ≤ fuel → (∀ b ∈ l, b < 256) →
    ∀ cp ∈ utf8bDecodeLoop fuel l,
      (cp < 0x110000 ∧ ¬(0xD800 ≤ cp ∧ cp < 0xE000)) ∨
        (0xDC80 ≤ cp ∧ cp < 0xDD00) := by
  intro fuel
  induction fuel with
  | zero =>
    intro l hl _
    cases l with
    | nil => intro cp hcp; simp [utf8bDecodeLoop] at hcp
    | cons b t => simp at hl
  | succ n ih =>
    intro l hl hwf
    cases l with
    | nil => intro cp hcp; simp [utf8bDecodeLoop] at hcp
    | cons b t =>
      obtain ⟨cp0, k, heq, h1, h2, _, hclass⟩ := decode_unit b t hwf
      simp only [utf8bDecodeLoop, heq]
      rw [if_neg (by omega)]
      intro cp hcp
      rcases List.mem_cons.mp hcp with hcp | hcp
      · exact hcp ▸ hclass
      · exact ih ((b :: t).drop k) (by rw [List.length_drop]; omega)
          (fun x hx => hwf x (List.drop_subset _ _ hx)) cp hcp

/-! ### Decoding a freshly encoded unit (scalar round-trip) -/

theorem dec_enc_1 (cp : Nat) (rest : List Nat) (h : cp < 0x80) :
    c_utf8b_to_codepoint (c_codepoint_to_utf8b cp 4 ++ rest) true = (cp, 1) := by
  have henc : c_codepoint_to_utf8b cp 4 = [cp] := enc_ascii cp h
  rw [henc, List.singleton_append]
  simp only [c_utf8b_to_codepoint, c_utf8_ok]
  rw [if_pos h]

theorem dec_enc_2 (cp : Nat) (rest : List Nat) (h : 0x80 ≤ cp) (h' : cp < 0x800) :
    c_utf8b_to_codepoint (c_codepoint_to_utf8b cp 4 ++ rest) true = (cp, 2) := by
  have hb0 : (0xC0 ||| ((cp >>> 6) &&& 0x1F)) % 256 = 192 + cp / 64 := by
    rw [shr6, and31]
    have e : cp / 64 % 32 = cp / 64 := by omega
    rw [e, or192 _ (by omega)]
    omega
  have hb1 : (0x80 ||| (cp &&& 0x3F)) % 256 = 128 + cp % 64 := by
    rw [and63, or128 _ (by omega)]
    omega
  have henc : c_codepoint_to_utf8b cp 4 = [192 + cp / 64, 128 + cp % 64] := by
    unfold c_codepoint_to_utf8b
    rw [if_neg (by omega), if_pos h', if_pos (by norm_num), hb0, hb1]
  rw [henc, List.cons_append, List.cons_append, List.nil_append]
  have hcont : (128 + cp % 64) &&& 0xC0 = 0x80 :=
    (contByte_iff _ (by omega)).mpr ⟨by omega, by omega⟩
  have hval : ((192 + cp / 64) &&& 0x1F) <<< 6 ||| ((128 + cp % 64) &&& 0x3F) = cp := by
    rw [and31, and63, shl6, orMul64 _ _ (Nat.mod_lt _ (by norm_num))]
    omega
  simp only [c_utf8b_to_codepoint, c_utf8_ok]
  rw [if_neg (by omega), if_neg (by omega), if_neg (not_not_intro hcont),
    if_pos (by omega), hval]

theorem dec_enc_3 (cp : Nat) (rest : List Nat) (h : 0x800 ≤ cp) (h' : cp < 0x10000)
    (hs : cp < 0xD800 ∨ 0xE000 ≤ cp) :
    c_utf8b_to_codepoint (c_codepoint_to_utf8b cp 4 ++ rest) true = (cp, 3) := by
  have hb0 : (0xE0 ||| ((cp >>> 12) &&& 0x0F)) % 256 = 224 + cp / 4096 := by
    rw [shr12, and15]
    have e : cp / 4096 % 16 = cp / 4096 := by omega
    rw [e, or224 _ (by omega)]
    omega
  have hb1 : (0x80 ||| ((cp >>> 6) &&& 0x3F)) % 256 = 128 + cp / 64 % 64 := by
    rw [shr6, and63, or128 _ (by omega)]
    omega
  have hb2 : (0x80 ||| (cp &&& 0x3F)) % 256 = 128 + cp % 64 := by
    rw [and63, or128 _ (by omega)]
    omega
  have henc : c_codepoint_to_utf8b cp 4 =
      [224 + cp / 4096, 128 + cp / 64 % 64, 128 + cp % 64] := by
    unfold c_codepoint_to_utf8b
    rw [if_neg (by omega), if_neg (by omega), if_pos h', if_pos hs,
      if_pos (by norm_num), hb0, hb1, hb2]
  rw [henc, List.cons_append, List.cons_append, List.cons_append, List.nil_append]
  have hcont1 : (128 + cp / 64 % 64) &&& 0xC0 = 0x80 :=
    (contByte_iff _ (by omega)).mpr ⟨by omega, by omega⟩
  have hcont2 : (128 + cp % 64) &&& 0xC0 = 0x80 :=
    (contByte_iff _ (by omega)).mpr ⟨by omega, by omega⟩
  have hval : ((224 + cp / 4096) &&& 0x0F) <<< 12 |||
      ((128 + cp / 64 % 64) &&& 0x3F) <<< 6 ||| ((128 + cp % 64) &&& 0x3F) = cp := by
    rw [and15, and63, and63, shl12, shl6]
    have e0 : (224 + cp / 4096) % 16 = cp / 4096 := by omega
    have e1 : (128 + cp / 64 % 64) % 64 = cp / 64 % 64 := by omega
    have e2 : (128 + cp % 64) % 64 = cp % 64 := by omega
    rw [e0, e1, e2, orMul4096 _ _ (by have := Nat.mod_lt (cp / 64) (y := 64); omega)]
    have e3 : cp / 4096 * 4096 + cp / 64 % 64 * 64 =
        (cp / 4096 * 64 + cp / 64 % 64) * 64 := by ring
    rw [e3, orMul64 _ _ (Nat.mod_lt _ (by norm_num))]
    omega
  simp only [c_utf8b_to_codepoint, c_utf8_ok]
  rw [if_neg (by omega), if_neg (by omega), if_neg (not_not_intro hcont1),
    if_neg (by omega), if_neg (not_not_intro hcont2), if_pos (by omega), hval,
    if_pos ⟨h, hs⟩]

theorem dec_enc_4 (cp : Nat) (rest : List Nat) (h : 0x10000 ≤ cp) (h' : cp < 0x110000) :
    c_utf8b_to_codepoint (c_codepoint_to_utf8b cp 4 ++ rest) true = (cp, 4) := by
  have hb0 : (0xF0 ||| ((cp >>> 18) &&& 0x07)) % 256 = 240 + cp / 262144 := by
    rw [shr18, and7]
    have e : cp / 262144 % 8 = cp / 262144 := by omega
    rw [e, or240 _ (by omega)]
    omega
  have hb1 : (0x80 ||| ((cp >>> 12) &&& 0x3F)) % 256 = 128 + cp / 4096 % 64 := by
    rw [shr12, and63, or128 _ (by omega)]
    omega
  have hb2 : (0x80 ||| ((cp >>> 6) &&& 0x3F)) % 256 = 128 + cp / 64 % 64 := by
    rw [shr6, and63, or128 _ (by omega)]
    omega
  have hb3 : (0x80 ||| (cp &&& 0x3F)) % 256 = 128 + cp % 64 := by
    rw [and63, or128 _ (by omega)]
    omega
  have henc : c_codepoint_to_utf8b cp 4 =
      [240 + cp / 262144, 128 + cp / 4096 % 64, 128 + cp / 64 % 64, 128 + cp % 64] := by
    unfold c_codepoint_to_utf8b
    rw [if_neg (by omega), if_neg (by omega), if_neg (by omega), if_pos h',
      if_pos (by norm_num), hb0, hb1, hb2, hb3]
  rw [henc, List.cons_append, List.cons_append, List.cons_append, List.cons_append,
    List.nil_append]
  have hcont1 : (128 + cp / 4096 % 64) &&& 0xC0 = 0x80 :=
    (contByte_iff _ (by omega)).mpr ⟨by omega, by omega⟩
  have hcont2 : (128 + cp / 64 % 64) &&& 0xC0 = 0x80 :=
    (contByte_iff _ (by omega)).mpr ⟨by omega, by omega⟩
  have hcont3 : (128 + cp % 64) &&& 0xC0 = 0x80 :=
    (contByte_iff _ (by omega)).mpr ⟨by omega, by omega⟩
  have hval : ((240 + cp / 262144) &&& 0x07) <<< 18 |||
      ((128 + cp / 4096 % 64) &&& 0x3F) <<< 12 |||
      ((128 + cp / 64 % 64) &&& 0x3F) <<< 6 ||| ((128 + cp % 64) &&& 0x3F) = cp := by
    rw [and7, and63, and63, and63, shl18, shl12, shl6]
    have e0 : (240 + cp / 262144) % 8 = cp / 262144 := by omega
    have e1 : (128 + cp / 4096 % 64) % 64 = cp / 4096 % 64 := by omega
    have e2 : (128 + cp / 64 % 64) % 64 = cp / 64 % 64 := by omega
    have e3 : (128 + cp % 64) % 64 = cp % 64 := by omega
    rw [e0, e1, e2, e3,
      orMul262144 _ _ (by have := Nat.mod_lt (cp / 4096) (y := 64); omega)]
    have e4 : cp / 262144 * 262144 + cp / 4096 % 64 * 4096 =
        (cp / 262144 * 64 + cp / 4096 % 64) * 4096 := by ring
    rw [e4, orMul4096 _ _ (by have := Nat.mod_lt (cp / 64) (y := 64); omega)]
    have e5 : (cp / 262144 * 64 + cp / 4096 % 64) * 4096 + cp / 64 % 64 * 64 =
        ((cp / 262144 * 64 + cp / 4096 % 64) * 64 + cp / 64 % 64) * 64 := by ring
    rw [e5, orMul64 _ _ (Nat.mod_lt _ (by norm_num))]
    omega
  simp only [c_utf8b_to_codepoint, c_utf8_ok]
  rw [if_neg (by omega), if_neg (by omega), if_neg (not_not_intro hcont1),
    if_neg (by omega), if_neg (not_not_intro hcont2), if_neg (by omega),
    if_pos ⟨by omega, hcont3⟩, hval, if_pos ⟨h, h'⟩]

/-- Decoding an encoded legal scalar value, with anything appended, yields the
scalar back and consumes exactly its encoding. -/
theorem dec_enc (cp : Nat) (rest : List Nat)
    (hcp : cp < 0xD800 ∨ (0xE000 ≤ cp ∧ cp < 0x110000)) :
    c_utf8b_to_codepoint (c_codepoint_to_utf8b cp 4 ++ rest) true =
      (cp, (c_codepoint_to_utf8b cp 4).length) ∧
    1 ≤ (c_codepoint_to_utf8b cp 4).length := by
  by_cases h1 : cp < 0x80
  · have := dec_enc_1 cp rest h1
    rw [enc_ascii cp h1] at this ⊢
    exact ⟨this, by simp⟩
  · by_cases h2 : cp < 0x800
    · have hd := dec_enc_2 cp rest (by omega) h2
      have hl : (c_codepoint_to_utf8b cp 4).length = 2 := by
        unfold c_codepoint_to_utf8b
        rw [if_neg (by omega), if_pos h2, if_pos (by norm_num)]
        rfl
      rw [hd, hl]
      exact ⟨rfl, by omega⟩
    · by_cases h3 : cp < 0x10000
      · have hs : cp < 0xD800 ∨ 0xE000 ≤ cp := by omega
        have hd := dec_enc_3 cp rest (by omega) h3 hs
        have hl : (c_codepoint_to_utf8b cp 4).length = 3 := by
          unfold c_codepoint_to_utf8b
          rw [if_neg (by omega), if_neg (by omega), if_pos h3, if_pos hs,
            if_pos (by norm_num)]
          rfl
        rw [hd, hl]
        exact ⟨rfl, by omega⟩
      · have hd := dec_enc_4 cp rest (by omega) (by omega)
        have hl : (c_codepoint_to_utf8b cp 4).length = 4 := by
          unfold c_codepoint_to_utf8b
          rw [if_neg (by omega), if_neg (by omega), if_neg (by omega),
            if_pos (by omega), if_pos (by norm_num)]
          rfl
        rw [hd, hl]
        exact ⟨rfl, by omega⟩

theorem scalar_roundtrip_aux : ∀ fuel S, S.length ≤ fuel →
    (∀ c ∈ S, c < 0xD800 ∨ (0xE000 ≤ c ∧ c < 0x110000)) →
    utf8bDecodeLoop fuel (utf8bEncode S) = S := by
  intro fuel
  induction fuel with
  | zero =>
    intro S hS _
    cases S with
    | nil => rfl
    | cons c t => simp at hS
  | succ n ih =>
    intro S hS hleg
    cases S with
    | nil => rfl
    | cons c t =>
      have hc := hleg c (by simp)
      obtain ⟨hd, h1⟩ := dec_enc c (utf8bEncode t) hc
      simp only [utf8bEncode]
      cases hE : c_codepoint_to_utf8b c 4 with
      | nil => rw [hE] at h1; simp at h1
      | cons e0 es =>
        rw [hE, List.cons_append] at hd
        simp only [List.length_cons] at hd
        simp only [List.cons_append, utf8bDecodeLoop, List.append_eq, hd]
        rw [if_neg (by simp)]
        rw [List.drop_succ_cons, List.drop_left]
        rw [ih t (by simp at hS; omega) (fun x hx => hleg x (by simp [hx]))]

theorem le_length_encode : ∀ S : List Nat,
    (∀ c ∈ S, c < 0xD800 ∨ (0xE000 ≤ c ∧ c < 0x110000)) →
    S.length ≤ (utf8bEncode S).length := by
  intro S
  induction S with
  | nil => intro _; simp [utf8bEncode]
  | cons c t ih =>
    intro hleg
    have h1 := (dec_enc c [] (hleg c (by simp))).2
    have h2 := ih (fun x hx => hleg x (by simp [hx]))
    simp only [utf8bEncode, List.length_cons, List.length_append]
    omega

/-! ### Bounded-write lemmas -/

theorem writeBytes_out : ∀ (bs : List Nat) (mem : Nat → Nat) (i p : Nat),
    (p < i ∨ i + bs.length ≤ p) → writeBytes mem i bs p = mem p := by
  intro bs
  induction bs with
  | nil => intro mem i p _; rfl
  | cons b t ih =>
    intro mem i p hp
    simp only [List.length_cons] at hp
    simp only [writeBytes]
    rw [ih _ _ _ (by omega)]
    simp only [writeByte]
    rw [if_neg (by omega)]

theorem c_string_to_utf8b_loop_bounded : ∀ (slice : List Nat) (oend : Nat)
    (mem : Nat → Nat) (opos p : Nat), oend ≤ p →
    ((c_string_to_utf8b_loop oend slice mem opos).2) p = mem p := by
  intro slice
  induction slice with
  | nil => intro oend mem opos p _; rfl
  | cons cp rest ih =>
    intro oend mem opos p hp
    simp only [c_string_to_utf8b_loop]
    split_ifs with h1 h2
    · rfl
    · rw [ih _ _ _ _ hp, writeBytes_out]
      right
      have := c_codepoint_to_utf8b_length_le cp (oend - opos)
      omega
    · rfl

theorem c_bytes_loop_bounded : ∀ (fuel : Nat) (l : List Nat) (str : Int → Nat)
    (str_pos str_end : Int) (eof : Bool) (q : Int), str_end ≤ q →
    ((c_bytes_utf8b_to_string_loop str_end eof fuel l str str_pos).2.1) q = str q := by
  intro fuel
  induction fuel with
  | zero =>
    intro l str str_pos str_end eof q _
    cases l <;> rfl
  | succ n ih =>
    intro l str str_pos str_end eof q hq
    cases l with
    | nil => rfl
    | cons b t =>
      simp only [c_bytes_utf8b_to_string_loop]
      split_ifs with h1
      · rfl
      · rw [ih _ _ _ _ _ _ hq]
        simp only [writeChar]
        rw [if_neg (by push_neg at h1; omega)]

/-! ### Length-only versus stateful decode -/

set_option maxHeartbeats 1600000 in
theorem unit_length_agree (l : List Nat) :
    c_utf8b_to_codepoint_length l = (c_utf8b_to_codepoint l true).2 := by
  rcases l with _ | ⟨b0, _ | ⟨b1, _ | ⟨b2, _ | ⟨b3, t⟩⟩⟩⟩ <;>
    simp only [c_utf8b_to_codepoint_length, c_utf8b_to_codepoint, c_utf8_ok,
      c_utf8_incomplete] <;>
    split_ifs <;> first | rfl | simp_all

set_option maxHeartbeats 1600000 in
theorem unit_consumed_bounds (b0 : Nat) (t : List Nat) :
    1 ≤ (c_utf8b_to_codepoint (b0 :: t) true).2 ∧
    (c_utf8b_to_codepoint (b0 :: t) true).2 ≤ (b0 :: t).length := by
  rcases t with _ | ⟨b1, _ | ⟨b2, _ | ⟨b3, t⟩⟩⟩ <;>
    simp only [c_utf8b_to_codepoint, c_utf8_ok, c_utf8_incomplete] <;>
    split_ifs <;> simp_all [List.length_cons]

theorem seq_length_agree_aux : ∀ (fuel : Nat) (l : List Nat) (str : Int → Nat)
    (str_pos str_end : Int), l.length ≤ fuel →
    (l.length : Int) ≤ str_end - str_pos →
    (c_bytes_utf8b_to_string_loop str_end true fuel l str str_pos).1 = [] ∧
    (c_bytes_utf8b_to_string_loop str_end true fuel l str str_pos).2.2 =
      str_pos + (c_bytes_utf8b_to_string_length_loop fuel l : Int) := by
  intro fuel
  induction fuel with
  | zero =>
    intro l str str_pos str_end hf hc
    cases l with
    | nil =>
      exact ⟨rfl, by
        simp [c_bytes_utf8b_to_string_loop, c_bytes_utf8b_to_string_length_loop]⟩
    | cons b t => simp at hf
  | succ n ih =>
    intro l str str_pos str_end hf hc
    cases l with
    | nil =>
      exact ⟨rfl, by
        simp [c_bytes_utf8b_to_string_loop, c_bytes_utf8b_to_string_length_loop]⟩
    | cons b t =>
      obtain ⟨hk1, hk2⟩ := unit_consumed_bounds b t
      have hlen := unit_length_agree (b :: t)
      simp only [List.length_cons] at hf
      simp only [List.length_cons, Nat.cast_add, Nat.cast_one] at hc
      simp only [c_bytes_utf8b_to_string_loop, c_bytes_utf8b_to_string_length_loop]
      have hg1 : ¬((c_utf8b_to_codepoint (b :: t) true).2 = 0 ∨
          (b :: t).length < (c_utf8b_to_codepoint (b :: t) true).2 ∨
          str_end ≤ str_pos) := by
        push_neg
        refine ⟨by omega, by omega, by omega⟩
      have hg2 : ¬(c_utf8b_to_codepoint_length (b :: t) = 0 ∨
          (b :: t).length < c_utf8b_to_codepoint_length (b :: t)) := by
        rw [hlen]
        omega
      rw [if_neg hg1, if_neg hg2, hlen]
      have hdl : ((b :: t).drop (c_utf8b_to_codepoint (b :: t) true).2).length =
          (b :: t).length - (c_utf8b_to_codepoint (b :: t) true).2 :=
        List.length_drop _ _
      obtain ⟨ha, hb⟩ := ih ((b :: t).drop (c_utf8b_to_codepoint (b :: t) true).2)
        (writeChar str str_pos (c_utf8b_to_codepoint (b :: t) true).1)
        (str_pos + 1) str_end
        (by simp only [List.length_cons] at hdl hk2; omega)
        (by
          rw [hdl]
          simp only [List.length_cons] at hk2 ⊢
          omega)
      refine ⟨ha, ?_⟩
      rw [hb]
      push_cast
      omega

/-! ### Commit behaviour on abort -/

/-- The bytes the unit encoder writes do not depend on the remaining
capacity: whenever it writes at all, it writes the same unit it would write
with ample capacity. -/
theorem c_codepoint_to_utf8b_content (cp m : Nat)
    (h : c_codepoint_to_utf8b cp m ≠ []) :
    c_codepoint_to_utf8b cp m = c_codepoint_to_utf8b cp 4 := by
  unfold c_codepoint_to_utf8b at h ⊢
  split_ifs at h ⊢ <;> first | rfl | simp_all

theorem writeBytes_cons (mem : Nat → Nat) (i x : Nat) (l : List Nat) :
    writeBytes mem i (x :: l) = writeBytes (writeByte mem i x) (i + 1) l := rfl

theorem writeBytes_append : ∀ (xs ys : List Nat) (mem : Nat → Nat) (i : Nat),
    writeBytes mem i (xs ++ ys) = writeBytes (writeBytes mem i xs) (i + xs.length) ys := by
  intro xs
  induction xs with
  | nil => intro ys mem i; simp [writeBytes]
  | cons x xs ih =>
    intro ys mem i
    rw [List.cons_append, writeBytes_cons mem i x (xs ++ ys),
      writeBytes_cons mem i x xs, ih]
    have hp : i + 1 + xs.length = i + (x :: xs).length := by
      rw [List.length_cons]
      omega
    rw [hp]

/-- The encode loop commits exactly the encodings of the first `k` units,
contiguously from `opos`: on success `k` is the whole slice and the final
position is returned; on either failure outcome (`Sfalse`, `Schar`) the
current unit is aborted with nothing written, `k` stopping strictly before
it, and the prior `k` complete units stand in the buffer. -/
theorem encode_commit : ∀ (slice : List Nat) (oend : Nat) (mem : Nat → Nat)
    (opos : Nat),
    ∃ k, k ≤ slice.length ∧
      (c_string_to_utf8b_loop oend slice mem opos).2 =
        writeBytes mem opos (utf8bEncode (slice.take k)) ∧
      ((c_string_to_utf8b_loop oend slice mem opos).1 =
          SRet.sfixnum (opos + (utf8bEncode (slice.take k)).length) ∧
          k = slice.length ∨
        ((c_string_to_utf8b_loop oend slice mem opos).1 = SRet.sfalse ∨
          ∃ c, (c_string_to_utf8b_loop oend slice mem opos).1 = SRet.schar c) ∧
          k < slice.length) := by
  intro slice
  induction slice with
  | nil =>
    intro oend mem opos
    exact ⟨0, le_refl 0, by simp [c_string_to_utf8b_loop, writeBytes, utf8bEncode],
      Or.inl ⟨by simp [c_string_to_utf8b_loop, utf8bEncode], rfl⟩⟩
  | cons cp rest ih =>
    intro oend mem opos
    simp only [c_string_to_utf8b_loop]
    by_cases h1 : oend ≤ opos
    · rw [if_pos h1]
      exact ⟨0, by simp, by simp [writeBytes, utf8bEncode],
        Or.inr ⟨Or.inl rfl, by simp⟩⟩
    · rw [if_neg h1]
      by_cases h2 : (c_codepoint_to_utf8b cp (oend - opos)).length ≠ 0
      · rw [if_pos h2]
        have hne : c_codepoint_to_utf8b cp (oend - opos) ≠ [] := by
          intro hh
          exact h2 (by rw [hh]; rfl)
        have hcont := c_codepoint_to_utf8b_content cp (oend - opos) hne
        obtain ⟨k, hk, hmem, hout⟩ := ih oend
          (writeBytes mem opos (c_codepoint_to_utf8b cp (oend - opos)))
          (opos + (c_codepoint_to_utf8b cp (oend - opos)).length)
        have hlen : (c_codepoint_to_utf8b cp (oend - opos)).length =
            (c_codepoint_to_utf8b cp 4).length := by rw [hcont]
        refine ⟨k + 1, by simp; omega, ?_, ?_⟩
        · rw [hmem, List.take_succ_cons]
          simp only [utf8bEncode]
          rw [writeBytes_append, ← hcont, hlen, ← hcont]
        · rcases hout with ⟨ho, hk'⟩ | ⟨ho, hk'⟩
          · refine Or.inl ⟨?_, by simp [hk']⟩
            rw [ho, List.take_succ_cons]
            simp only [utf8bEncode, List.length_append]
            congr 1
            omega
          · exact Or.inr ⟨ho, by simp; omega⟩
      · rw [if_neg h2]
        exact ⟨0, by simp, by simp [writeBytes, utf8bEncode],
          Or.inr ⟨Or.inr ⟨cp, rfl⟩, by simp⟩⟩

/-- The consecutive `Sstring_set` stores performed by the decode loop. -/
def writeChars : (Int → Nat) → Int → List Nat → (Int → Nat)
  | str, _, [] => str
  | str, i, c :: cs => writeChars (writeChar str i c) (i + 1) cs

/-- The decode loop consumes a contiguous prefix of the input and writes its
codepoints at consecutive string positions starting at `str_pos`, advancing
the cursor by exactly one slot per committed codepoint; on any stop (input
exhausted, capacity reached, or incomplete input) the current unit's bytes
stay unconsumed and prior codepoints stand in the string. -/
theorem decode_commit : ∀ (fuel : Nat) (l : List Nat) (str : Int → Nat)
    (str_pos str_end : Int) (eof : Bool),
    ∃ (pre cs : List Nat),
      l = pre ++ (c_bytes_utf8b_to_string_loop str_end eof fuel l str str_pos).1 ∧
      (c_bytes_utf8b_to_string_loop str_end eof fuel l str str_pos).2.1 =
        writeChars str str_pos cs ∧
      (c_bytes_utf8b_to_string_loop str_end eof fuel l str str_pos).2.2 =
        str_pos + (cs.length : Int) := by
  intro fuel
  induction fuel with
  | zero =>
    intro l str str_pos str_end eof
    cases l with
    | nil =>
      exact ⟨[], [], by simp [c_bytes_utf8b_to_string_loop], rfl,
        by simp [c_bytes_utf8b_to_string_loop]⟩
    | cons b t =>
      exact ⟨[], [], by simp [c_bytes_utf8b_to_string_loop], rfl,
        by simp [c_bytes_utf8b_to_string_loop]⟩
  | succ n ih =>
    intro l str str_pos str_end eof
    cases l with
    | nil =>
      exact ⟨[], [], by simp [c_bytes_utf8b_to_string_loop], rfl,
        by simp [c_bytes_utf8b_to_string_loop]⟩
    | cons b t =>
      simp only [c_bytes_utf8b_to_string_loop]
      by_cases hg : (c_utf8b_to_codepoint (b :: t) eof).2 = 0 ∨
          (b :: t).length < (c_utf8b_to_codepoint (b :: t) eof).2 ∨ str_end ≤ str_pos
      · rw [if_pos hg]
        exact ⟨[], [], by simp, rfl, by simp⟩
      · rw [if_neg hg]
        obtain ⟨pre', cs', heq, hmem, hpos⟩ :=
          ih ((b :: t).drop (c_utf8b_to_codepoint (b :: t) eof).2)
            (writeChar str str_pos (c_utf8b_to_codepoint (b :: t) eof).1)
            (str_pos + 1) str_end eof
        refine ⟨(b :: t).take (c_utf8b_to_codepoint (b :: t) eof).2 ++ pre',
          (c_utf8b_to_codepoint (b :: t) eof).1 :: cs', ?_, ?_, ?_⟩
        · rw [List.append_assoc, ← heq, List.take_append_drop]
        · exact hmem
        · rw [hpos]
          simp only [List.length_cons]
          push_cast
          ring

/-- Calling encode-append over the whole string with a nonnegative output
start is exactly the encode loop on the string itself. -/
theorem append_full_range (string : List Nat) (blen : Nat) (mem : Nat → Nat)
    (ostart : Nat) :
    c_string_to_utf8b_append string 0 (string.length : Int) blen mem (ostart : Int) =
      c_string_to_utf8b_loop blen string mem ostart := by
  unfold c_string_to_utf8b_append
  rw [if_pos ⟨le_refl 0, Int.natCast_nonneg _, Int.natCast_nonneg _⟩]
  have h1 : (if (0 : Int) < (string.length : Int) then (0 : Int)
      else (string.length : Int)) = 0 := by
    split_ifs with h
    · rfl
    · omega
  have h2 : (if (string.length : Int) < (string.length : Int) then
      (if (0 : Int) ≤ (string.length : Int) then (string.length : Int) else (0 : Int))
      else (string.length : Int)) = (string.length : Int) :=
    if_neg (lt_irrefl _)
  simp only [h1, h2, Int.toNat_zero, Int.toNat_natCast, List.drop_zero,
    List.take_length]

/-! ### Claim theorems -/

/-- C1: byte-level round-trip losslessness: decoding any byte sequence one
unit at a time with end-of-input asserted, then re-encoding the resulting
codepoint sequence, reproduces the original bytes exactly — for valid UTF-8,
invalid lead bytes, bad continuation bytes, overlong forms and truncated
tails alike. -/
theorem claim1_byte_roundtrip (B : List Nat) (hB : ∀ b ∈ B, b < 256) :
    utf8bEncode (utf8bDecode B) = B :=
  roundtrip_aux B.length B le_rfl hB

/-- Witness for C1 at the spec's concrete scenario bytes. -/
theorem claim1_byte_roundtrip_witness :
    (∀ b ∈ [0x41, 0xE2, 0x82, 0xAC, 0xFF], b < 256) ∧
    utf8bEncode (utf8bDecode [0x41, 0xE2, 0x82, 0xAC, 0xFF]) =
      [0x41, 0xE2, 0x82, 0xAC, 0xFF] :=
  ⟨by decide, claim1_byte_roundtrip _ (by decide)⟩

/-- C2, failing input: the claim (and the code's own comments) say that
decoding `[0xE2, 0x82]` with `endOfInput = false` consumes nothing and
produces nothing; the code instead consumes both bytes and stores the
incomplete-marker codepoint `0xFFFFFFFF`, because `c_utf8_incomplete` sets
the consumed length to `in_len` itself, which the caller's
`pair.length > in_len` test never catches.  The second scenario
(`[0xE2, 0x82, 0xAC]` with `endOfInput = true`) behaves as specified. -/
theorem claim2_incomplete_divergence :
    (c_bytes_utf8b_to_string_append [0xE2, 0x82] (fun _ => 0) 0 2 false).1 = (2, 1) ∧
    (c_bytes_utf8b_to_string_append [0xE2, 0x82] (fun _ => 0) 0 2 false).1 ≠ (0, 0) ∧
    ((c_bytes_utf8b_to_string_append [0xE2, 0x82] (fun _ => 0) 0 2 false).2) 0 =
      0xFFFFFFFF ∧
    (c_bytes_utf8b_to_string_append [0xE2, 0x82, 0xAC] (fun _ => 0) 0 3 true).1 =
      (3, 1) ∧
    ((c_bytes_utf8b_to_string_append [0xE2, 0x82, 0xAC] (fun _ => 0) 0 3 true).2) 0 =
      0x20AC := by
  decide

/-- C3: capacity safety and bounded write: (1) the sequence encoder never
writes at or beyond the bytevector length and (2) the sequence decoder never
writes at or beyond `str_end`, for every input, range and capacity; moreover
exceeding capacity aborts only the current unit after committing all prior
complete units: (3) the encode loop leaves the buffer holding exactly the
contiguous encodings of the first `k` complete units — all of them on
success, strictly fewer on either failure outcome, with nothing of the
aborted unit written — where (4) that loop is exactly the full-range append
operation; and (5) decode-append consumes exactly a contiguous prefix of its
input and commits exactly its codepoints at consecutive positions, one
output slot per codepoint, leaving the aborted unit's bytes unconsumed. -/
theorem claim3_capacity_safety :
    (∀ (string : List Nat) (start end_ : Int) (blen : Nat) (mem : Nat → Nat)
      (ostart : Int) (p : Nat), blen ≤ p →
      ((c_string_to_utf8b_append string start end_ blen mem ostart).2) p = mem p) ∧
    (∀ (inp : List Nat) (str : Int → Nat) (str_start str_end : Int) (eof : Bool)
      (q : Int), str_end ≤ q →
      ((c_bytes_utf8b_to_string_append inp str str_start str_end eof).2) q = str q) ∧
    (∀ (slice : List Nat) (oend : Nat) (mem : Nat → Nat) (opos : Nat),
      ∃ k, k ≤ slice.length ∧
        (c_string_to_utf8b_loop oend slice mem opos).2 =
          writeBytes mem opos (utf8bEncode (slice.take k)) ∧
        ((c_string_to_utf8b_loop oend slice mem opos).1 =
            SRet.sfixnum (opos + (utf8bEncode (slice.take k)).length) ∧
            k = slice.length ∨
          ((c_string_to_utf8b_loop oend slice mem opos).1 = SRet.sfalse ∨
            ∃ c, (c_string_to_utf8b_loop oend slice mem opos).1 = SRet.schar c) ∧
            k < slice.length)) ∧
    (∀ (string : List Nat) (blen : Nat) (mem : Nat → Nat) (ostart : Nat),
      c_string_to_utf8b_append string 0 (string.length : Int) blen mem
          (ostart : Int) =
        c_string_to_utf8b_loop blen string mem ostart) ∧
    (∀ (inp : List Nat) (str : Int → Nat) (str_start str_end : Int) (eof : Bool),
      ∃ (pre suf cs : List Nat),
        inp = pre ++ suf ∧
        (c_bytes_utf8b_to_string_append inp str str_start str_end eof).1 =
          (pre.length, cs.length) ∧
        ((c_bytes_utf8b_to_string_append inp str str_start str_end eof).2) =
          writeChars str str_start cs) := by
  refine ⟨?_, ?_, encode_commit, append_full_range, ?_⟩
  · intro string start end_ blen mem ostart p hp
    unfold c_string_to_utf8b_append
    by_cases h : 0 ≤ start ∧ start ≤ end_ ∧ 0 ≤ ostart
    · rw [if_pos h]
      exact c_string_to_utf8b_loop_bounded _ _ _ _ _ hp
    · rw [if_neg h]
  · intro inp str str_start str_end eof q hq
    unfold c_bytes_utf8b_to_string_append
    by_cases h : inp.length = 0 ∨ str_end ≤ str_start
    · rw [if_pos h]
    · rw [if_neg h]
      exact c_bytes_loop_bounded _ _ _ _ _ _ _ hq
  · intro inp str str_start str_end eof
    unfold c_bytes_utf8b_to_string_append
    by_cases h : inp.length = 0 ∨ str_end ≤ str_start
    · rw [if_pos h]
      exact ⟨[], inp, [], rfl, rfl, rfl⟩
    · rw [if_neg h]
      obtain ⟨pre, cs, heq, hmem, hpos⟩ :=
        decode_commit inp.length inp str str_start str_end eof
      refine ⟨pre, (c_bytes_utf8b_to_string_loop str_end eof inp.length inp str
        str_start).1, cs, heq, ?_, hmem⟩
      have hlpre : pre.length =
          inp.length - (c_bytes_utf8b_to_string_loop str_end eof inp.length inp str
            str_start).1.length := by
        have hl := congrArg List.length heq
        rw [List.length_append] at hl
        omega
      rw [Prod.mk.injEq]
      refine ⟨hlpre.symm, ?_⟩
      rw [hpos]
      omega

/-- Witness for C3 at concrete undersized buffers. -/
theorem claim3_capacity_safety_witness :
    ((1 : Nat) ≤ 1 ∧ ((c_string_to_utf8b_append [0x41] 0 1 1 (fun _ => 0) 0).2) 1 = 0) ∧
    ((2 : Int) ≤ 2 ∧
      ((c_bytes_utf8b_to_string_append [0x41] (fun _ => 0) 0 2 true).2) 2 = 0) :=
  ⟨⟨le_refl 1, claim3_capacity_safety.1 [0x41] 0 1 1 (fun _ => 0) 0 1 (le_refl 1)⟩,
   ⟨le_refl 2, claim3_capacity_safety.2.1 [0x41] (fun _ => 0) 0 2 true 2 (le_refl 2)⟩⟩

/-- C4, failing input: with the valid two-byte scalar 0x80 and one byte of
remaining capacity, encode-append returns the invalid-scalar outcome
`Schar 0x80` instead of the generic failure `Sfalse` that the claim — and the
function's own doc comment — require for insufficient capacity; the third
conjunct shows the same scalar is encodable when capacity suffices. -/
theorem claim4_outcome_conflation :
    (c_string_to_utf8b_append [0x80] 0 1 1 (fun _ => 0) 0).1 = SRet.schar 0x80 ∧
    (c_string_to_utf8b_append [0x80] 0 1 1 (fun _ => 0) 0).1 ≠ SRet.sfalse ∧
    c_codepoint_to_utf8b 0x80 4 = [0xC2, 0x80] := by
  decide

/-- C5 counterexample: an encode call whose `end_` lies beyond the string
length is not rejected: with string `[0x41]` (length 1) and `end_ = 2` the
encoder clamps the range, succeeds with `Sfixnum 1`, and mutates the output
buffer. -/
theorem claim5_counterexample :
    (c_string_to_utf8b_append [0x41] 0 2 4 (fun _ => 0) 0).1 = SRet.sfixnum 1 ∧
    (c_string_to_utf8b_append [0x41] 0 2 4 (fun _ => 0) 0).1 ≠ SRet.sfalse ∧
    ((c_string_to_utf8b_append [0x41] 0 2 4 (fun _ => 0) 0).2) 0 = 0x41 := by
  decide

/-- C5 amended: negative or inverted ranges are rejected without mutation by
the encoder (`Sfalse`), by the decoder wrapper (`(0, 0)`), and by the
encoder's length function (`0`); the decoder wrapper also rejects
`bvec_end` beyond the bytevector length without mutation.  An input `end_`
beyond the string length is clamped by the encoder and its length function,
not rejected (see the counterexample). -/
theorem claim5_range_validation :
    (∀ (string : List Nat) (start end_ : Int) (blen : Nat) (mem : Nat → Nat)
      (ostart : Int), start < 0 ∨ end_ < start ∨ ostart < 0 →
      (c_string_to_utf8b_append string start end_ blen mem ostart).1 = SRet.sfalse ∧
      ∀ p, ((c_string_to_utf8b_append string start end_ blen mem ostart).2) p = mem p) ∧
    (∀ (bvec : List Nat) (bvec_start bvec_end : Int) (str : Int → Nat)
      (str_start str_end : Int) (eof : Bool),
      bvec_start < 0 ∨ bvec_end < bvec_start ∨ str_start < 0 ∨ str_end < str_start ∨
        (bvec.length : Int) < bvec_end →
      (c_bytevector_utf8b_to_string_append bvec bvec_start bvec_end str str_start
        str_end eof).1 = (0, 0) ∧
      ∀ q, ((c_bytevector_utf8b_to_string_append bvec bvec_start bvec_end str
        str_start str_end eof).2) q = str q) ∧
    (∀ (string : List Nat) (start end_ : Int), start < 0 ∨ end_ ≤ start →
      c_string_to_utf8b_length string start end_ = 0) := by
  refine ⟨?_, ?_, ?_⟩
  · intro string start end_ blen mem ostart h
    unfold c_string_to_utf8b_append
    rw [if_neg (by omega)]
    exact ⟨rfl, fun p => rfl⟩
  · intro bvec bvec_start bvec_end str str_start str_end eof h
    unfold c_bytevector_utf8b_to_string_append
    by_cases hg : 0 ≤ bvec_start ∧ bvec_start ≤ bvec_end ∧ 0 ≤ str_start ∧
        str_start ≤ str_end
    · rw [if_pos hg, if_neg (by omega)]
      exact ⟨rfl, fun q => rfl⟩
    · rw [if_neg hg]
      exact ⟨rfl, fun q => rfl⟩
  · intro string start end_ h
    unfold c_string_to_utf8b_length
    rw [if_neg (by omega)]

/-- Witness for the amended C5 at concrete invalid ranges. -/
theorem claim5_range_validation_witness :
    ((-1 : Int) < 0 ∨ (0 : Int) < -1 ∨ (0 : Int) < 0) ∧
    (c_string_to_utf8b_append [0x41] (-1) 0 4 (fun _ => 0) 0).1 = SRet.sfalse ∧
    (c_bytevector_utf8b_to_string_append [0x41] 0 2 (fun _ => 0) 0 4 true).1 =
      (0, 0) ∧
    c_string_to_utf8b_length [0x41] (-1) 0 = 0 :=
  ⟨by decide,
   (claim5_range_validation.1 [0x41] (-1) 0 4 (fun _ => 0) 0 (by decide)).1,
   (claim5_range_validation.2.1 [0x41] 0 2 (fun _ => 0) 0 4 true (by decide)).1,
   claim5_range_validation.2.2 [0x41] (-1) 0 (by decide)⟩

/-- C6: scalar-level round-trip: encoding any sequence of legally encodable
Unicode scalar values (in `[0, 0xD800) ∪ [0xE000, 0x110000)`) and decoding
the bytes with end-of-input asserted yields the sequence back. -/
theorem claim6_scalar_roundtrip (S : List Nat)
    (hS : ∀ c ∈ S, c < 0xD800 ∨ (0xE000 ≤ c ∧ c < 0x110000)) :
    utf8bDecode (utf8bEncode S) = S :=
  scalar_roundtrip_aux (utf8bEncode S).length S (le_length_encode S hS) hS

/-- Witness for C6 with a 1-, 3- and 4-byte scalar. -/
theorem claim6_scalar_roundtrip_witness :
    (∀ c ∈ [0x41, 0x20AC, 0x10348], c < 0xD800 ∨ (0xE000 ≤ c ∧ c < 0x110000)) ∧
    utf8bDecode (utf8bEncode [0x41, 0x20AC, 0x10348]) = [0x41, 0x20AC, 0x10348] :=
  ⟨by decide, claim6_scalar_roundtrip _ (by decide)⟩

/-- C7: the length-only single-unit decode agrees with the stateful one at
end of input on the consumed byte count, and the sequence-level scalar count
of the length-only pass equals the scalar count produced by decode-append
with end-of-input asserted and output capacity equal to the input length
(enough for any input, hence "unbounded"); decode-append then also consumes
the whole input. -/
theorem claim7_length_stateful_agreement (l : List Nat) (str : Int → Nat) :
    c_utf8b_to_codepoint_length l = (c_utf8b_to_codepoint l true).2 ∧
    (c_bytes_utf8b_to_string_append l str 0 (l.length : Int) true).1 =
      (l.length, c_bytes_utf8b_to_string_length l) := by
  refine ⟨unit_length_agree l, ?_⟩
  unfold c_bytes_utf8b_to_string_append
  by_cases h0 : l.length = 0
  · rw [if_pos (Or.inl h0)]
    cases l with
    | nil => rfl
    | cons b t => simp at h0
  · rw [if_neg (by push_neg; exact ⟨h0, by omega⟩)]
    obtain ⟨ha, hb⟩ :=
      seq_length_agree_aux l.length l str 0 (l.length : Int) le_rfl (by omega)
    simp only [ha, hb, List.length_nil, Nat.sub_zero, c_bytes_utf8b_to_string_length]
    rw [Prod.mk.injEq]
    refine ⟨rfl, ?_⟩
    omega

/-- C8: the encoder's length computation always returns a numeric length in
`{1, 2, 3, 4}` and does not validate: for every bare surrogate outside the
escape sub-range it reports 3 bytes even though encode-append rejects the
same scalar with the invalid-scalar outcome. -/
theorem claim8_dryrun_no_validation :
    (∀ cp : Nat, 1 ≤ c_codepoint_to_utf8b_length cp ∧
      c_codepoint_to_utf8b_length cp ≤ 4) ∧
    (∀ (cp : Nat) (mem : Nat → Nat),
      (0xD800 ≤ cp ∧ cp < 0xDC80) ∨ (0xDD00 ≤ cp ∧ cp < 0xE000) →
      c_codepoint_to_utf8b_length cp = 3 ∧
      (c_string_to_utf8b_append [cp] 0 1 4 mem 0).1 = SRet.schar cp) := by
  constructor
  · intro cp
    unfold c_codepoint_to_utf8b_length
    split_ifs <;> omega
  · intro cp mem h
    constructor
    · unfold c_codepoint_to_utf8b_length
      rw [if_neg (by omega), if_neg (by omega), if_pos (by omega)]
    · have hw : c_string_to_utf8b_append [cp] 0 1 4 mem 0 =
          c_string_to_utf8b_loop 4 [cp] mem 0 := by
        unfold c_string_to_utf8b_append
        norm_num
      rw [hw]
      simp only [c_string_to_utf8b_loop]
      rw [if_neg (by omega)]
      have hwr : c_codepoint_to_utf8b cp (4 - 0) = [] := by
        unfold c_codepoint_to_utf8b
        rw [if_neg (by omega), if_neg (by omega), if_pos (by omega),
          if_neg (by omega)]
      rw [hwr]
      simp

/-- Witness for C8 at the bare surrogate 0xD800. -/
theorem claim8_dryrun_no_validation_witness :
    (((0xD800 : Nat) ≤ 0xD800 ∧ (0xD800 : Nat) < 0xDC80) ∨
      ((0xDD00 : Nat) ≤ 0xD800 ∧ (0xD800 : Nat) < 0xE000)) ∧
    (c_codepoint_to_utf8b_length 0xD800 = 3 ∧
      (c_string_to_utf8b_append [0xD800] 0 1 4 (fun _ => 0) 0).1 =
        SRet.schar 0xD800) :=
  ⟨by decide, claim8_dryrun_no_validation.2 0xD800 (fun _ => 0) (by decide)⟩

/-- C9: the overlong two-byte encoding `[0xC0, 0x80]` of NUL decodes, at end
of input, to the two escape codepoints `[0xDCC0, 0xDC80]` — one byte per
codepoint — and never to the codepoint 0. -/
theorem claim9_overlong_escaped :
    utf8bDecode [0xC0, 0x80] = [0xDCC0, 0xDC80] ∧
    (0 : Nat) ∉ utf8bDecode [0xC0, 0x80] ∧
    (c_bytes_utf8b_to_string_append [0xC0, 0x80] (fun _ => 0) 0 2 true).1 = (2, 2) ∧
    ((c_bytes_utf8b_to_string_append [0xC0, 0x80] (fun _ => 0) 0 2 true).2) 0 =
      0xDCC0 ∧
    ((c_bytes_utf8b_to_string_append [0xC0, 0x80] (fun _ => 0) 0 2 true).2) 1 =
      0xDC80 := by
  decide

/-- C10: every codepoint produced by decoding with end-of-input asserted is
either a genuine Unicode scalar value (below 0x110000 and outside the
surrogate range) or an escape value `0xDC00 ||| b` for a byte
`b ∈ [0x80, 0xFF]`, hence in `[0xDC80, 0xDCFF]`; in particular escapes never
collide with decoded ASCII. -/
theorem claim10_decoder_output_invariant (B : List Nat) (hB : ∀ b ∈ B, b < 256) :
    ∀ cp ∈ utf8bDecode B,
      (cp < 0x110000 ∧ ¬(0xD800 ≤ cp ∧ cp < 0xE000)) ∨
      (∃ b, 0x80 ≤ b ∧ b ≤ 0xFF ∧ cp = 0xDC00 ||| b ∧ 0xDC80 ≤ cp ∧ cp < 0xDD00) := by
  intro cp hcp
  rcases decoded_class_aux B.length B le_rfl hB cp hcp with h | h
  · exact Or.inl h
  · refine Or.inr ⟨cp - 0xDC00, by omega, by omega, ?_, h.1, h.2⟩
    rw [orDC00 _ (by omega)]
    omega

/-- Witness for C10 on one ASCII byte and one invalid byte. -/
theorem claim10_decoder_output_invariant_witness :
    (∀ b ∈ [0x41, 0xFF], b < 256) ∧
    ∀ cp ∈ utf8bDecode [0x41, 0xFF],
      (cp < 0x110000 ∧ ¬(0xD800 ≤ cp ∧ cp < 0xE000)) ∨
      (∃ b, 0x80 ≤ b ∧ b ≤ 0xFF ∧ cp = 0xDC00 ||| b ∧ 0xDC80 ≤ cp ∧ cp < 0xDD00) :=
  ⟨by decide, claim10_decoder_output_invariant [0x41, 0xFF] (by decide)⟩

end Schemesh
